import Mathlib

/-!
Shallow embedding of `eventbus.h` (sergereinov/cpp17-eventbus), a single-header
single-threaded C++17 event bus, together with proofs about its behaviour.

Modelling decisions, each justified by the source:

* `std::type_index` event ids (`internal::event_id_t`) are modelled as `Nat`
  (`event_id_t`).  The only property the code uses is decidable equality as a
  map key.
* The payload carried inside `std::any` is modelled as a `Nat`.  The dispatch
  path always pairs a payload with the event id derived from its static type,
  so the `std::any_cast` in `Callback::execute` never fails; the model keeps
  the `(id, payload)` pairing explicit.
* A `Callback<Event>` wraps a `std::function<void(const Event&)>` which may be
  null; `execute` runs the function only when it is non-null (`if (cb) cb(...)`).
  In the model a callback carries a `tag : Nat` (its identity, used to record
  invocations in an observation trace) and `fn : Option (List Postponded)`:
  `none` models a null `std::function`; `some posts` models a function whose
  observable effect on the bus is to post the events `posts` (callbacks reach
  the bus only through its public methods, and registry mutation from inside a
  running callback is undefined-behaviour-adjacent per the design, so posting
  is the re-entrant effect the model supports).  Every invocation of a
  non-null function appends `(tag, payload)` to the bus's `log`; the `log`
  field is pure observation and has no counterpart in the C++ state.
* `std::map<event_id_t, EventListeners>` is modelled as an association list
  with unique keys.  `operator[]` inserts a missing key; `std::map` would
  place it at its sorted position, the model appends it at the end.  No claim
  observes cross-key iteration order (dispatch looks up a single key, and
  `removeListener(int)` treats every entry independently), so this is sound.
* `m_lastListenerId` is a C++ `int` incremented from 0; overflow is
  unreachable in any claim, so it is a `Nat`.
* `process()` runs a range-`for` over `m_postpondedEvents` while callbacks may
  `push_back` into the same vector.  The reallocation-free behaviour of that
  loop (cached end pointer) visits exactly the elements present at entry, and
  the final `clear()` then erases the whole vector, including events posted
  during the loop.  The model iterates the snapshot taken at entry and then
  empties the queue.
-/

/-- `internal::event_id_t = std::type_index`, modelled as a natural number. -/
abbrev event_id_t := Nat

/-- `EventBus::Postponded`: an event id together with the erased event value. -/
structure Postponded where
  id : event_id_t
  event : Nat
deriving DecidableEq, Repr

/-- `internal::Callback<Event>`: a type-erased callback wrapper.  `fn = none`
models a null `std::function`; `fn = some posts` models a function that posts
`posts` back to the bus when invoked.  `tag` identifies the callback in the
observation trace. -/
structure Callback where
  tag : Nat
  fn : Option (List Postponded)
deriving DecidableEq, Repr

/-- `EventBus::ListenerCallbacks`: one listener's callbacks for one event id. -/
structure ListenerCallbacks where
  listener_id : Nat
  calls : List Callback
deriving DecidableEq, Repr

/-- `EventBus::EventListeners = std::vector<ListenerCallbacks>`. -/
abbrev EventListeners := List ListenerCallbacks

/-- `EventBus::ListenersMap = std::map<event_id_t, EventListeners>`, as an
association list with unique keys. -/
abbrev ListenersMap := List (event_id_t × EventListeners)

/-- The bus state: the three data members of `EventBus`, plus `log`, the
observation trace of callback invocations `(tag, payload)` (not part of the
C++ state). -/
structure EventBus where
  m_lastListenerId : Nat
  m_listeners : ListenersMap
  m_postpondedEvents : List Postponded
  log : List (Nat × Nat)
deriving DecidableEq, Repr

/-- A freshly constructed `EventBus`. -/
def emptyBus : EventBus := ⟨0, [], [], []⟩

/-- `std::map::find` on the association list. -/
def mapFind (m : ListenersMap) (id : event_id_t) : Option EventListeners :=
  match m with
  | [] => none
  | (k, v) :: rest => if k = id then some v else mapFind rest id

/-- `internal::erase_if`: erase every element satisfying the predicate. -/
def erase_if {T : Type} (v : List T) (pred : T → Bool) : List T :=
  v.filter (fun x => !(pred x))

/-- `internal::Callback::execute`: runs the wrapped function on the payload if
it is non-null (`if (cb) cb(std::any_cast<Event>(e));`).  A non-null function
logs its invocation and posts its events; a null one does nothing. -/
def Callback.execute (c : Callback) (e : Nat) (s : EventBus) : EventBus :=
  match c.fn with
  | none => s
  | some posts =>
    { s with
      log := s.log ++ [(c.tag, e)]
      m_postpondedEvents := s.m_postpondedEvents ++ posts }

/-- `EventBus::immediate(event_id_t, std::any)` (the private overload; the
public template computes the id from the static type and forwards here):
find the listeners for `id` and run every callback of every group in order. -/
def EventBus.immediate (s : EventBus) (id : event_id_t) (e : Nat) : EventBus :=
  match mapFind s.m_listeners id with
  | none => s
  | some els =>
    els.foldl (fun st el => el.calls.foldl (fun st2 c => c.execute e st2) st) s

/-- `EventBus::post<Event>`: append `Postponded{id, e}` to the queue. -/
def EventBus.post (s : EventBus) (id : event_id_t) (e : Nat) : EventBus :=
  { s with m_postpondedEvents := s.m_postpondedEvents ++ [⟨id, e⟩] }

/-- `EventBus::process`: dispatch every queued event, then clear the queue.
The C++ loop is a range-`for` over the vector itself; its reallocation-free
behaviour visits exactly the elements present at entry (events pushed during
the loop sit past the cached end), and `clear()` then erases everything,
including events posted by callbacks during the loop. -/
def EventBus.process (s : EventBus) : EventBus :=
  let s1 := s.m_postpondedEvents.foldl (fun st pe => st.immediate pe.id pe.event) s
  { s1 with m_postpondedEvents := [] }

/-- `EventBus::getNewListenerId`: `return ++m_lastListenerId;`. -/
def EventBus.getNewListenerId (s : EventBus) : Nat × EventBus :=
  (s.m_lastListenerId + 1, { s with m_lastListenerId := s.m_lastListenerId + 1 })

/-- The body of `EventBus::addListener` acting on one key's group list:
`std::find_if` the first group with this `listener_id` and append the callback
to it; if there is none, `push_back` a new group holding just this callback. -/
def addCallbackToGroups (els : EventListeners) (lid : Nat) (cb : Callback) :
    EventListeners :=
  match els with
  | [] => [⟨lid, [cb]⟩]
  | el :: rest =>
    if el.listener_id = lid then ⟨el.listener_id, el.calls ++ [cb]⟩ :: rest
    else el :: addCallbackToGroups rest lid cb

/-- `m_listeners[id]` followed by the `addListener` body: update the entry for
`id`, default-inserting it when absent (appended at the end; see the header
comment on `std::map` ordering). -/
def addToMap (m : ListenersMap) (id : event_id_t) (lid : Nat) (cb : Callback) :
    ListenersMap :=
  match m with
  | [] => [(id, addCallbackToGroups [] lid cb)]
  | (k, els) :: rest =>
    if k = id then (k, addCallbackToGroups els lid cb) :: rest
    else (k, els) :: addToMap rest id lid cb

/-- `EventBus::addListener(event_id_t, int, callback)`. -/
def EventBus.addListener (s : EventBus) (id : event_id_t) (lid : Nat)
    (cb : Callback) : EventBus :=
  { s with m_listeners := addToMap s.m_listeners id lid cb }

/-- `EventBus::removeListener(event_id_t, int)` acting on the map: find the
entry for `id` (return unchanged if absent), `erase_if` the groups with this
`listener_id`, and erase the key when the remaining list is empty. -/
def removeFromMapOne (m : ListenersMap) (id : event_id_t) (lid : Nat) :
    ListenersMap :=
  match m with
  | [] => []
  | (k, els) :: rest =>
    if k = id then
      if (erase_if els (fun el => el.listener_id == lid)).isEmpty then rest
      else (k, erase_if els (fun el => el.listener_id == lid)) :: rest
    else (k, els) :: removeFromMapOne rest id lid

/-- `EventBus::removeListener(event_id_t, int)`. -/
def EventBus.removeListener (s : EventBus) (id : event_id_t) (lid : Nat) :
    EventBus :=
  { s with m_listeners := removeFromMapOne s.m_listeners id lid }

/-- `EventBus::removeListener(int)` acting on the map: for every entry,
`erase_if` the groups with this `listener_id` and drop entries left empty. -/
def removeFromMapAll (m : ListenersMap) (lid : Nat) : ListenersMap :=
  match m with
  | [] => []
  | (k, els) :: rest =>
    if (erase_if els (fun el => el.listener_id == lid)).isEmpty then
      removeFromMapAll rest lid
    else (k, erase_if els (fun el => el.listener_id == lid)) :: removeFromMapAll rest lid

/-- `EventBus::removeListener(int)`: remove a listener for all event ids. -/
def EventBus.removeListenerAll (s : EventBus) (lid : Nat) : EventBus :=
  { s with m_listeners := removeFromMapAll s.m_listeners lid }

/-- The `Listener` handle: its immutable id and whether `m_bus` is non-null
(`m_hasBus = false` models a handle holding no bus, e.g. one whose
`shared_ptr` was moved from). -/
structure Listener where
  m_listenerId : Nat
  m_hasBus : Bool
deriving DecidableEq, Repr

/-- `Listener::Listener(bus)`: take a fresh id from the bus and hold it. -/
def Listener.create (s : EventBus) : Listener × EventBus :=
  let r := s.getNewListenerId
  (⟨r.1, true⟩, r.2)

/-- `Listener::listen<Event>`: `if (!m_bus) return;` then `addListener`. -/
def Listener.listen (l : Listener) (s : EventBus) (id : event_id_t)
    (cb : Callback) : EventBus :=
  if l.m_hasBus then s.addListener id l.m_listenerId cb else s

/-- `Listener::unlisten<Event>`: `if (m_bus) m_bus->removeListener(id, ...)`. -/
def Listener.unlisten (l : Listener) (s : EventBus) (id : event_id_t) :
    EventBus :=
  if l.m_hasBus then s.removeListener id l.m_listenerId else s

/-- `Listener::unlistenAll`: `if (m_bus) m_bus->removeListener(m_listenerId)`. -/
def Listener.unlistenAll (l : Listener) (s : EventBus) : EventBus :=
  if l.m_hasBus then s.removeListenerAll l.m_listenerId else s

/-- `Listener::~Listener`: calls `unlistenAll`. -/
def Listener.destructor (l : Listener) (s : EventBus) : EventBus :=
  l.unlistenAll s

/-- The trace one callback contributes when executed with payload `e`: its
`(tag, e)` entry when its function is non-null, nothing when it is null. -/
def callTrace (e : Nat) (c : Callback) : List (Nat × Nat) :=
  match c.fn with
  | none => []
  | some _ => [(c.tag, e)]

/-- The invocation trace of dispatching payload `e` to a group list: groups in
order, callbacks within each group in order. -/
def groupsTrace (e : Nat) (els : EventListeners) : List (Nat × Nat) :=
  els.flatMap (fun el => el.calls.flatMap (fun c => callTrace e c))

/-- The invocation trace of one `immediate(id, e)` against map `m`. -/
def immediateTrace (m : ListenersMap) (id : event_id_t) (e : Nat) :
    List (Nat × Nat) :=
  match mapFind m id with
  | none => []
  | some els => groupsTrace e els

theorem execute_log (c : Callback) (e : Nat) (s : EventBus) :
    (c.execute e s).log = s.log ++ callTrace e c := by
  cases h : c.fn <;> simp [Callback.execute, callTrace, h]

theorem execute_listeners (c : Callback) (e : Nat) (s : EventBus) :
    (c.execute e s).m_listeners = s.m_listeners := by
  cases h : c.fn <;> simp [Callback.execute, h]

theorem execute_lastId (c : Callback) (e : Nat) (s : EventBus) :
    (c.execute e s).m_lastListenerId = s.m_lastListenerId := by
  cases h : c.fn <;> simp [Callback.execute, h]

theorem foldCalls_log (e : Nat) (cs : List Callback) (st : EventBus) :
    (cs.foldl (fun st2 c => c.execute e st2) st).log
      = st.log ++ cs.flatMap (callTrace e) := by
  induction cs generalizing st with
  | nil => simp
  | cons c cs ih => simp [ih, execute_log]

theorem foldCalls_listeners (e : Nat) (cs : List Callback) (st : EventBus) :
    (cs.foldl (fun st2 c => c.execute e st2) st).m_listeners = st.m_listeners := by
  induction cs generalizing st with
  | nil => simp
  | cons c cs ih => simp [ih, execute_listeners]

theorem foldCalls_lastId (e : Nat) (cs : List Callback) (st : EventBus) :
    (cs.foldl (fun st2 c => c.execute e st2) st).m_lastListenerId
      = st.m_lastListenerId := by
  induction cs generalizing st with
  | nil => simp
  | cons c cs ih => simp [ih, execute_lastId]

theorem foldGroups_log (e : Nat) (els : EventListeners) (st : EventBus) :
    (els.foldl (fun st el => el.calls.foldl (fun st2 c => c.execute e st2) st) st).log
      = st.log ++ groupsTrace e els := by
  induction els generalizing st with
  | nil => simp [groupsTrace]
  | cons el els ih => simp [ih, foldCalls_log, groupsTrace]

theorem foldGroups_listeners (e : Nat) (els : EventListeners) (st : EventBus) :
    (els.foldl (fun st el => el.calls.foldl (fun st2 c => c.execute e st2) st) st).m_listeners
      = st.m_listeners := by
  induction els generalizing st with
  | nil => simp
  | cons el els ih => simp [ih, foldCalls_listeners]

theorem foldGroups_lastId (e : Nat) (els : EventListeners) (st : EventBus) :
    (els.foldl (fun st el => el.calls.foldl (fun st2 c => c.execute e st2) st) st).m_lastListenerId
      = st.m_lastListenerId := by
  induction els generalizing st with
  | nil => simp
  | cons el els ih => simp [ih, foldCalls_lastId]

theorem immediate_log (s : EventBus) (id : event_id_t) (e : Nat) :
    (s.immediate id e).log = s.log ++ immediateTrace s.m_listeners id e := by
  unfold EventBus.immediate immediateTrace
  cases mapFind s.m_listeners id with
  | none => simp
  | some els => simp [foldGroups_log]

theorem immediate_listeners (s : EventBus) (id : event_id_t) (e : Nat) :
    (s.immediate id e).m_listeners = s.m_listeners := by
  unfold EventBus.immediate
  cases mapFind s.m_listeners id with
  | none => simp
  | some els => simp [foldGroups_listeners]

theorem immediate_lastId (s : EventBus) (id : event_id_t) (e : Nat) :
    (s.immediate id e).m_lastListenerId = s.m_lastListenerId := by
  unfold EventBus.immediate
  cases mapFind s.m_listeners id with
  | none => simp
  | some els => simp [foldGroups_lastId]

theorem dispatchFold_log (l : List Postponded) (s : EventBus) :
    (l.foldl (fun st pe => st.immediate pe.id pe.event) s).log
      = s.log ++ l.flatMap (fun pe => immediateTrace s.m_listeners pe.id pe.event) := by
  induction l generalizing s with
  | nil => simp
  | cons pe l ih =>
    simp only [List.foldl_cons, List.flatMap_cons, ih, immediate_log,
      immediate_listeners, List.append_assoc]

theorem dispatchFold_listeners (l : List Postponded) (s : EventBus) :
    (l.foldl (fun st pe => st.immediate pe.id pe.event) s).m_listeners
      = s.m_listeners := by
  induction l generalizing s with
  | nil => simp
  | cons pe l ih => simp [ih, immediate_listeners]

theorem process_log (s : EventBus) :
    (s.process).log
      = s.log ++ s.m_postpondedEvents.flatMap
          (fun pe => immediateTrace s.m_listeners pe.id pe.event) := by
  simp [EventBus.process, dispatchFold_log]

theorem process_listeners (s : EventBus) :
    (s.process).m_listeners = s.m_listeners := by
  simp [EventBus.process, dispatchFold_listeners]

theorem process_queue (s : EventBus) : (s.process).m_postpondedEvents = [] := rfl

theorem immediate_of_none (s : EventBus) (id : event_id_t) (e : Nat)
    (h : mapFind s.m_listeners id = none) : s.immediate id e = s := by
  unfold EventBus.immediate
  rw [h]

theorem dispatchFold_id_of_none (l : List Postponded) (s : EventBus)
    (h : ∀ pe ∈ l, mapFind s.m_listeners pe.id = none) :
    l.foldl (fun st pe => st.immediate pe.id pe.event) s = s := by
  induction l with
  | nil => rfl
  | cons pe l ih =>
    rw [List.foldl_cons, immediate_of_none s pe.id pe.event (h pe (by simp))]
    exact ih (fun q hq => h q (by simp [hq]))

/-- Claim C1 (corrected): events enqueued by a callback running during
`process()` are not dispatched by that same `process()` call — the loop covers
only the snapshot present at entry — but, contrary to the claim, they do not
remain in the pending queue: `process()` ends with `m_postpondedEvents.clear()`,
which also erases the events posted during the loop, so the next `process()`
call does not dispatch them either. -/
theorem process_snapshot_then_clear_all (s : EventBus) :
    (s.process).log = s.log ++ s.m_postpondedEvents.flatMap
        (fun pe => immediateTrace s.m_listeners pe.id pe.event)
    ∧ (s.process).m_postpondedEvents = []
    ∧ ((s.process).process).log = (s.process).log := by
  refine ⟨process_log s, process_queue s, ?_⟩
  rw [process_log (s.process), process_queue s]
  simp

/-- Concrete bus refuting claim C1 as stated: one listener (id 1) subscribed
to event id 0, whose callback (tag 10) posts event `⟨0, 99⟩` when invoked, and
one pending event `⟨0, 5⟩`. -/
def busC1 : EventBus :=
  ⟨1, [(0, [⟨1, [⟨10, some [⟨0, 99⟩]⟩]⟩])], [⟨0, 5⟩], []⟩

/-- Counterexample to claim C1 as stated: dispatching `⟨0, 5⟩` does enqueue
`⟨0, 99⟩` (first conjunct), and `process` does run the callback exactly once
(second conjunct), yet the posted event does not remain in the pending queue
after `process` returns (third conjunct) and the next `process` dispatches
nothing (fourth conjunct). -/
theorem process_reentrant_post_dropped_cex :
    (busC1.immediate 0 5).m_postpondedEvents = [⟨0, 5⟩, ⟨0, 99⟩]
    ∧ (EventBus.process busC1).log = [(10, 5)]
    ∧ ¬ (Postponded.mk 0 99 ∈ (EventBus.process busC1).m_postpondedEvents)
    ∧ ((EventBus.process busC1).process).log = (EventBus.process busC1).log := by
  decide

/-- Claim C3 (confirmed): `process()` leaves the registry untouched, dispatches
the queued events in FIFO order, the invocation trace being the concatenation
of the per-event traces `immediateTrace` against the registry in force at each
point (which is the starting registry, first conjunct), each trace being
exactly what `immediate` of that event produces (third conjunct), and the
processed events are removed from the queue (fourth conjunct). -/
theorem process_refines_emit_now (s : EventBus) :
    (s.process).m_listeners = s.m_listeners
    ∧ (s.process).log = s.log ++ s.m_postpondedEvents.flatMap
        (fun pe => immediateTrace s.m_listeners pe.id pe.event)
    ∧ (∀ (st : EventBus) (id : event_id_t) (e : Nat),
        (st.immediate id e).log = st.log ++ immediateTrace st.m_listeners id e)
    ∧ (s.process).m_postpondedEvents = [] :=
  ⟨process_listeners s, process_log s,
    fun st id e => immediate_log st id e, process_queue s⟩

/-- Claim C7 (confirmed): for an event id with no registry entry, `immediate`
is a strict no-op; and when every pending event's id has no registry entry,
`process` invokes no callback and changes nothing but draining the queue. -/
theorem no_subscriber_noop :
    (∀ (s : EventBus) (id : event_id_t) (e : Nat),
      mapFind s.m_listeners id = none → s.immediate id e = s)
    ∧ (∀ s : EventBus, (∀ pe ∈ s.m_postpondedEvents, mapFind s.m_listeners pe.id = none) →
        s.process = { s with m_postpondedEvents := [] }) := by
  refine ⟨immediate_of_none, ?_⟩
  intro s h
  unfold EventBus.process
  rw [dispatchFold_id_of_none s.m_postpondedEvents s h]

/-- Witness for claim C7 at concrete inputs: the empty bus with event id 3,
and a bus whose queue holds only the unsubscribed event `⟨3, 7⟩`. -/
theorem no_subscriber_noop_witness :
    emptyBus.immediate 3 7 = emptyBus
    ∧ EventBus.process ⟨0, [], [⟨3, 7⟩], []⟩
        = { (⟨0, [], [⟨3, 7⟩], []⟩ : EventBus) with m_postpondedEvents := [] } :=
  ⟨no_subscriber_noop.1 emptyBus 3 7 rfl,
    no_subscriber_noop.2 ⟨0, [], [⟨3, 7⟩], []⟩ (by decide)⟩

/-- Claim C8 (confirmed): on a `Listener` handle holding no bus reference,
subscribing, unsubscribing one event id, unsubscribing everything, and
destruction are all safe no-ops on the bus state. -/
theorem null_bus_listener_noop (l : Listener) (s : EventBus) (id : event_id_t)
    (cb : Callback) (h : l.m_hasBus = false) :
    l.listen s id cb = s ∧ l.unlisten s id = s ∧ l.unlistenAll s = s
      ∧ l.destructor s = s := by
  simp [Listener.listen, Listener.unlisten, Listener.unlistenAll,
    Listener.destructor, h]

/-- Witness for claim C8: a bus-less handle with id 5 acting on the empty bus. -/
theorem null_bus_listener_noop_witness :
    (Listener.mk 5 false).listen emptyBus 0 ⟨1, some []⟩ = emptyBus
    ∧ (Listener.mk 5 false).unlisten emptyBus 0 = emptyBus
    ∧ (Listener.mk 5 false).unlistenAll emptyBus = emptyBus
    ∧ (Listener.mk 5 false).destructor emptyBus = emptyBus :=
  null_bus_listener_noop ⟨5, false⟩ emptyBus 0 ⟨1, some []⟩ rfl

/-- Claim C10 (confirmed): a null callback is accepted by registration — the
handle forwards it to `addListener` (first conjunct) and the group for its
listener retains it (second conjunct) — and dispatch tolerates it: executing a
null callback is the identity (third conjunct), and inside a group's callback
list a null entry is skipped while the surrounding callbacks run exactly as
they would without it (fourth conjunct). -/
theorem null_callback_tolerated :
    (∀ (s : EventBus) (id : event_id_t) (lid t : Nat),
      (Listener.mk lid true).listen s id ⟨t, none⟩ = s.addListener id lid ⟨t, none⟩)
    ∧ (∀ (els : EventListeners) (lid t : Nat),
        ∃ el, el ∈ addCallbackToGroups els lid ⟨t, none⟩ ∧ el.listener_id = lid
          ∧ Callback.mk t none ∈ el.calls)
    ∧ (∀ (t e : Nat) (s : EventBus), Callback.execute ⟨t, none⟩ e s = s)
    ∧ (∀ (t e : Nat) (cs1 cs2 : List Callback) (st : EventBus),
        (cs1 ++ Callback.mk t none :: cs2).foldl (fun st2 c => c.execute e st2) st
          = (cs1 ++ cs2).foldl (fun st2 c => c.execute e st2) st) := by
  refine ⟨fun s id lid t => rfl, ?_, fun t e s => rfl, ?_⟩
  · intro els lid t
    induction els with
    | nil =>
      refine ⟨⟨lid, [⟨t, none⟩]⟩, ?_, rfl, ?_⟩ <;> simp [addCallbackToGroups]
    | cons el rest ih =>
      by_cases h : el.listener_id = lid
      · refine ⟨⟨el.listener_id, el.calls ++ [⟨t, none⟩]⟩, ?_, h, ?_⟩ <;>
          simp [addCallbackToGroups, h]
      · obtain ⟨el2, hmem, hlid, hcall⟩ := ih
        exact ⟨el2, by simp [addCallbackToGroups, h, hmem], hlid, hcall⟩
  · intro t e cs1 cs2 st
    rw [List.foldl_append, List.foldl_append, List.foldl_cons]
    rfl

theorem mapFind_eq_none_of_forall (m : ListenersMap) (id : event_id_t)
    (h : ∀ kv ∈ m, kv.1 ≠ id) : mapFind m id = none := by
  induction m with
  | nil => rfl
  | cons kv rest ih =>
    obtain ⟨k, els⟩ := kv
    simp only [mapFind]
    rw [if_neg (h (k, els) (by simp))]
    exact ih (fun q hq => h q (by simp [hq]))

theorem removeOne_mapFind_other (m : ListenersMap) (id : event_id_t) (lid : Nat)
    (id2 : event_id_t) (h : id2 ≠ id) :
    mapFind (removeFromMapOne m id lid) id2 = mapFind m id2 := by
  induction m with
  | nil => rfl
  | cons kv rest ih =>
    obtain ⟨k, els⟩ := kv
    simp only [removeFromMapOne]
    by_cases hk : k = id
    · rw [if_pos hk]
      by_cases he : (erase_if els (fun el => el.listener_id == lid)).isEmpty
      · rw [if_pos he]
        simp only [mapFind]
        rw [if_neg (fun hc : k = id2 => h (hc ▸ hk))]
      · rw [if_neg he]
        simp only [mapFind]
        rw [if_neg (fun hc : k = id2 => h (hc ▸ hk)),
          if_neg (fun hc : k = id2 => h (hc ▸ hk))]
    · rw [if_neg hk]
      simp only [mapFind]
      by_cases h2 : k = id2
      · rw [if_pos h2, if_pos h2]
      · rw [if_neg h2, if_neg h2, ih]

theorem removeOne_mapFind_self (m : ListenersMap) (id : event_id_t) (lid : Nat)
    (hk : (m.map Prod.fst).Nodup) :
    mapFind (removeFromMapOne m id lid) id
      = match mapFind m id with
        | none => none
        | some els =>
          if (erase_if els (fun el => el.listener_id == lid)).isEmpty then none
          else some (erase_if els (fun el => el.listener_id == lid)) := by
  induction m with
  | nil => rfl
  | cons kv rest ih =>
    obtain ⟨k, els⟩ := kv
    rw [List.map_cons, List.nodup_cons] at hk
    have hfst : (k, els).1 = k := rfl
    by_cases h : k = id
    · have hnone : mapFind rest id = none := by
        apply mapFind_eq_none_of_forall
        intro q hq heq
        apply hk.1
        have hmem : q.1 ∈ List.map Prod.fst rest := List.mem_map_of_mem Prod.fst hq
        rw [heq, ← h] at hmem
        exact hmem
      have hfind : mapFind ((k, els) :: rest) id = some els := by
        simp only [mapFind]
        rw [if_pos h]
      rw [hfind]
      simp only [removeFromMapOne]
      rw [if_pos h]
      by_cases he : (erase_if els (fun el => el.listener_id == lid)).isEmpty
      · rw [if_pos he]
        show mapFind rest id
          = if (erase_if els (fun el => el.listener_id == lid)).isEmpty then none
            else some (erase_if els (fun el => el.listener_id == lid))
        rw [hnone, if_pos he]
      · rw [if_neg he]
        show mapFind ((k, erase_if els (fun el => el.listener_id == lid)) :: rest) id
          = if (erase_if els (fun el => el.listener_id == lid)).isEmpty then none
            else some (erase_if els (fun el => el.listener_id == lid))
        rw [if_neg he]
        simp only [mapFind]
        rw [if_pos h]
    · have hfind : mapFind ((k, els) :: rest) id = mapFind rest id := by
        simp only [mapFind]
        rw [if_neg h]
      rw [hfind]
      simp only [removeFromMapOne]
      rw [if_neg h]
      simp only [mapFind]
      rw [if_neg h]
      exact ih hk.2

theorem removeOne_noop (m : ListenersMap) (id : event_id_t) (lid : Nat)
    (h : ∀ kv ∈ m, kv.1 = id → kv.2 ≠ [] ∧ ∀ el ∈ kv.2, ¬ el.listener_id = lid) :
    removeFromMapOne m id lid = m := by
  induction m with
  | nil => rfl
  | cons kv rest ih =>
    obtain ⟨k, els⟩ := kv
    simp only [removeFromMapOne]
    by_cases hk : k = id
    · obtain ⟨hne, hno⟩ := h (k, els) (by simp) hk
      have hfe : erase_if els (fun el => el.listener_id == lid) = els := by
        unfold erase_if
        apply List.filter_eq_self.mpr
        intro el hel
        simpa using hno el hel
      rw [if_pos hk, hfe, if_neg (by simpa [List.isEmpty_iff] using hne)]
    · rw [if_neg hk, ih (fun q hq => h q (by simp [hq]))]

/-- Claim C5 (confirmed): `removeListener(id, lid)` leaves every other
event-type key untouched (first conjunct); under the unique-keys invariant it
turns the entry for `id` into the same group list with exactly the groups
owned by `lid` erased, removing the key itself when that leaves the list empty
(second conjunct); and when no group for `(id, lid)` exists it is a strict
no-op (third conjunct; the entry for `id`, when present, is non-empty on every
reachable state). -/
theorem removeListener_frame (s : EventBus) (id : event_id_t) (lid : Nat) :
    (∀ id2, id2 ≠ id →
      mapFind ((s.removeListener id lid).m_listeners) id2 = mapFind s.m_listeners id2)
    ∧ ((s.m_listeners.map Prod.fst).Nodup →
      mapFind ((s.removeListener id lid).m_listeners) id
        = match mapFind s.m_listeners id with
          | none => none
          | some els =>
            if (erase_if els (fun el => el.listener_id == lid)).isEmpty then none
            else some (erase_if els (fun el => el.listener_id == lid)))
    ∧ ((∀ kv ∈ s.m_listeners, kv.1 = id → kv.2 ≠ [] ∧ ∀ el ∈ kv.2, ¬ el.listener_id = lid) →
      s.removeListener id lid = s) := by
  refine ⟨fun id2 h2 => removeOne_mapFind_other s.m_listeners id lid id2 h2,
    fun hk => removeOne_mapFind_self s.m_listeners id lid hk, fun h => ?_⟩
  show { s with m_listeners := removeFromMapOne s.m_listeners id lid } = s
  rw [removeOne_noop s.m_listeners id lid h]

/-- Concrete bus for the C5 and C6 witnesses: listeners 1 and 2 subscribed to
event id 0, listener 1 also subscribed to event id 4. -/
def busW : EventBus :=
  ⟨2, [(0, [⟨1, [⟨10, some []⟩]⟩, ⟨2, [⟨20, some []⟩]⟩]), (4, [⟨1, [⟨11, some []⟩]⟩])],
    [], []⟩

/-- Witness for claim C5: removing `(0, 1)` from `busW` leaves key 4 intact,
rewrites key 0 to listener 2's group alone, and removing the absent pair
`(0, 3)` is a no-op. -/
theorem removeListener_frame_witness :
    mapFind ((busW.removeListener 0 1).m_listeners) 4 = mapFind busW.m_listeners 4
    ∧ mapFind ((busW.removeListener 0 1).m_listeners) 0
        = some [⟨2, [⟨20, some []⟩]⟩]
    ∧ busW.removeListener 0 3 = busW := by
  refine ⟨(removeListener_frame busW 0 1).1 4 (by decide), ?_,
    (removeListener_frame busW 0 3).2.2 (by decide)⟩
  rw [(removeListener_frame busW 0 1).2.1 (by decide)]
  decide

theorem removeAll_clean (m : ListenersMap) (lid : Nat) :
    ∀ kv ∈ removeFromMapAll m lid, kv.2 ≠ [] ∧ ∀ g ∈ kv.2, ¬ g.listener_id = lid := by
  induction m with
  | nil => intro kv h; cases h
  | cons kv0 rest ih =>
    obtain ⟨k, els⟩ := kv0
    intro kv hkv
    simp only [removeFromMapAll] at hkv
    by_cases he : (erase_if els (fun el => el.listener_id == lid)).isEmpty
    · rw [if_pos he] at hkv
      exact ih kv hkv
    · rw [if_neg he] at hkv
      rcases List.mem_cons.mp hkv with h | h
      · subst h
        refine ⟨by simpa [List.isEmpty_iff] using he, ?_⟩
        intro g hg
        have := List.of_mem_filter hg
        simpa using this
      · exact ih kv h

theorem removeAll_of_clean (m : ListenersMap) (lid : Nat)
    (h : ∀ kv ∈ m, kv.2 ≠ [] ∧ ∀ g ∈ kv.2, ¬ g.listener_id = lid) :
    removeFromMapAll m lid = m := by
  induction m with
  | nil => rfl
  | cons kv0 rest ih =>
    obtain ⟨k, els⟩ := kv0
    obtain ⟨hne, hno⟩ := h (k, els) (by simp)
    have hfe : erase_if els (fun el => el.listener_id == lid) = els := by
      unfold erase_if
      apply List.filter_eq_self.mpr
      intro el hel
      simpa using hno el hel
    simp only [removeFromMapAll]
    rw [hfe, if_neg (by simpa [List.isEmpty_iff] using hne),
      ih (fun q hq => h q (by simp [hq]))]

/-- Claim C6 (confirmed): `removeListener(lid)` is idempotent — applying it a
second time changes nothing — and after it runs no group owned by `lid`
remains under any key and no key is left with an empty group list. -/
theorem removeListenerAll_idempotent (s : EventBus) (lid : Nat) :
    (s.removeListenerAll lid).removeListenerAll lid = s.removeListenerAll lid
    ∧ ∀ kv ∈ (s.removeListenerAll lid).m_listeners,
        kv.2 ≠ [] ∧ ∀ g ∈ kv.2, ¬ g.listener_id = lid := by
  refine ⟨?_, removeAll_clean s.m_listeners lid⟩
  show { s with m_listeners := removeFromMapAll (removeFromMapAll s.m_listeners lid) lid }
    = { s with m_listeners := removeFromMapAll s.m_listeners lid }
  rw [removeAll_of_clean (removeFromMapAll s.m_listeners lid) lid
    (removeAll_clean s.m_listeners lid)]

/-- Witness for claim C6 at `busW` with listener id 1: the second removal is a
no-op and the surviving entry for key 0 holds only listener 2's group. -/
theorem removeListenerAll_idempotent_witness :
    (busW.removeListenerAll 1).removeListenerAll 1 = busW.removeListenerAll 1
    ∧ (((0 : event_id_t), ([⟨2, [⟨20, some []⟩]⟩] : EventListeners)).2 ≠ []
        ∧ ∀ g ∈ ((0 : event_id_t), ([⟨2, [⟨20, some []⟩]⟩] : EventListeners)).2,
            ¬ g.listener_id = 1) :=
  ⟨(removeListenerAll_idempotent busW 1).1,
    (removeListenerAll_idempotent busW 1).2 (0, [⟨2, [⟨20, some []⟩]⟩]) (by decide)⟩

/-- The listener ids of a group list, in order. -/
def lidsOf (els : EventListeners) : List Nat := els.map (fun el => el.listener_id)

/-- Helper for `firstDedup`: drop elements already in `seen`, remembering the
ones kept. -/
def firstDedupAux (seen : List Nat) : List Nat → List Nat
  | [] => []
  | a :: l =>
    if seen.contains a then firstDedupAux seen l
    else a :: firstDedupAux (a :: seen) l

/-- Keep the first occurrence of each element, in order of first occurrence
(spec side: the order in which each subscriber first registered). -/
def firstDedup (l : List Nat) : List Nat := firstDedupAux [] l

/-- A sequence of registration requests `(event id, listener id, callback)`
applied through `addListener`. -/
def registerSeq (ops : List (event_id_t × Nat × Callback)) (s : EventBus) :
    EventBus :=
  ops.foldl (fun st o => st.addListener o.1 o.2.1 o.2.2) s

/-- The registration requests concerning one event id, as
`(listener id, callback)` pairs in request order. -/
def opsFor (id : event_id_t) (ops : List (event_id_t × Nat × Callback)) :
    List (Nat × Callback) :=
  (ops.filter (fun o => o.1 == id)).map (fun o => o.2)

/-- Spec-side description of a registry entry built from scratch by the
requests `ps`: one group per listener id, in order of first registration, each
group holding that listener's callbacks in registration order. -/
def specGroups (ps : List (Nat × Callback)) : EventListeners :=
  (firstDedup (ps.map (fun p => p.1))).map
    (fun lid => ⟨lid, (ps.filter (fun p => p.1 == lid)).map (fun p => p.2)⟩)

/-- Append to a group the callbacks that `ps` registers for its listener id. -/
def extendCalls (ps : List (Nat × Callback)) (el : ListenerCallbacks) :
    ListenerCallbacks :=
  ⟨el.listener_id, el.calls ++ (ps.filter (fun p => p.1 == el.listener_id)).map (fun p => p.2)⟩

/-- Fold `addCallbackToGroups` over `(listener id, callback)` pairs. -/
def applyPairs (els : EventListeners) (ps : List (Nat × Callback)) :
    EventListeners :=
  ps.foldl (fun acc p => addCallbackToGroups acc p.1 p.2) els

/-- Append one callback to the group owning `lid`, leaving others alone. -/
def updGroup (lid : Nat) (cb : Callback) (el : ListenerCallbacks) :
    ListenerCallbacks :=
  if el.listener_id = lid then ⟨el.listener_id, el.calls ++ [cb]⟩ else el

theorem updGroup_lid (lid : Nat) (cb : Callback) (el : ListenerCallbacks) :
    (updGroup lid cb el).listener_id = el.listener_id := by
  unfold updGroup
  by_cases h : el.listener_id = lid
  · rw [if_pos h]
  · rw [if_neg h]

theorem firstDedupAux_congr (l : List Nat) (seen1 seen2 : List Nat)
    (h : ∀ x, seen1.contains x = seen2.contains x) :
    firstDedupAux seen1 l = firstDedupAux seen2 l := by
  induction l generalizing seen1 seen2 with
  | nil => rfl
  | cons a l ih =>
    simp only [firstDedupAux]
    rw [h a]
    by_cases hs : seen2.contains a
    · rw [if_pos hs, if_pos hs]
      exact ih seen1 seen2 h
    · rw [if_neg hs, if_neg hs]
      refine congrArg (a :: ·) (ih (a :: seen1) (a :: seen2) (fun x => ?_))
      rw [List.contains_cons, List.contains_cons, h x]

theorem firstDedupAux_filter (l : List Nat) (seen : List Nat) (a : Nat) :
    firstDedupAux (a :: seen) l
      = firstDedupAux seen (l.filter (fun b => !(b == a))) := by
  induction l generalizing seen with
  | nil => rfl
  | cons b l ih =>
    by_cases hba : b = a
    · subst hba
      have h1 : (b :: seen).contains b = true := by simp
      simp only [firstDedupAux, List.filter_cons]
      simp only [beq_self_eq_true, Bool.not_true, if_pos h1]
      exact ih seen
    · have hkeep : (!(b == a)) = true := by simp [hba]
      by_cases hsb : seen.contains b
      · have h1 : (a :: seen).contains b = true := by
          simp only [List.contains_cons, hsb, Bool.or_true]
        simp only [firstDedupAux, List.filter_cons, hkeep, if_pos rfl]
        rw [if_pos h1]
        simp only [firstDedupAux, if_pos hsb]
        exact ih seen
      · have h1 : (a :: seen).contains b = false := by
          simp only [List.contains_cons, hsb, Bool.or_false]
          simp [hba]
        simp only [firstDedupAux, List.filter_cons, hkeep, if_pos rfl]
        rw [if_neg (by rw [h1]; exact Bool.false_ne_true)]
        simp only [firstDedupAux, if_neg hsb]
        refine congrArg (b :: ·) ?_
        calc firstDedupAux (b :: a :: seen) l
            = firstDedupAux (a :: b :: seen) l :=
              firstDedupAux_congr l _ _ (fun x => by
                simp only [List.contains_cons]
                by_cases hx1 : (x == b) <;> by_cases hx2 : (x == a) <;>
                  simp [hx1, hx2])
          _ = firstDedupAux (b :: seen) (l.filter (fun c => !(c == a))) := ih (b :: seen)

theorem firstDedup_cons (a : Nat) (l : List Nat) :
    firstDedup (a :: l) = a :: firstDedup (l.filter (fun b => !(b == a))) := by
  unfold firstDedup
  simp only [firstDedupAux]
  rw [if_neg (by simp : ¬ ([] : List Nat).contains a = true)]
  rw [firstDedupAux_filter]

theorem mem_of_mem_firstDedupAux (x : Nat) (seen l : List Nat)
    (h : x ∈ firstDedupAux seen l) : x ∈ l := by
  induction l generalizing seen with
  | nil => cases h
  | cons a l ih =>
    simp only [firstDedupAux] at h
    by_cases hs : seen.contains a
    · rw [if_pos hs] at h
      exact List.mem_cons_of_mem a (ih seen h)
    · rw [if_neg hs] at h
      rcases List.mem_cons.mp h with h | h
      · exact h ▸ List.mem_cons_self x l
      · exact List.mem_cons_of_mem a (ih (a :: seen) h)

theorem map_updGroup_of_not_mem (els : EventListeners) (lid : Nat) (cb : Callback)
    (h : lid ∉ lidsOf els) : els.map (updGroup lid cb) = els := by
  rw [List.map_congr_left (g := id) ?_, List.map_id]
  intro el hel
  have hne : el.listener_id ≠ lid := by
    intro hc
    exact h (hc ▸ List.mem_map_of_mem (fun el => el.listener_id) hel)
  simp [updGroup, hne]

theorem addCb_of_mem (els : EventListeners) (lid : Nat) (cb : Callback)
    (hnd : (lidsOf els).Nodup) (hmem : lid ∈ lidsOf els) :
    addCallbackToGroups els lid cb = els.map (updGroup lid cb) := by
  induction els with
  | nil => cases hmem
  | cons el rest ih =>
    simp only [lidsOf, List.map_cons, List.nodup_cons] at hnd
    simp only [addCallbackToGroups, List.map_cons]
    by_cases h : el.listener_id = lid
    · rw [if_pos h]
      have hng : lid ∉ lidsOf rest := h ▸ hnd.1
      rw [map_updGroup_of_not_mem rest lid cb hng]
      simp [updGroup, h]
    · rw [if_neg h]
      have hmem2 : lid ∈ lidsOf rest := by
        rcases List.mem_cons.mp hmem with hc | hc
        · exact absurd hc.symm h
        · exact hc
      rw [ih hnd.2 hmem2]
      simp [updGroup, h]

theorem addCb_of_not_mem (els : EventListeners) (lid : Nat) (cb : Callback)
    (h : lid ∉ lidsOf els) :
    addCallbackToGroups els lid cb = els ++ [⟨lid, [cb]⟩] := by
  induction els with
  | nil => rfl
  | cons el rest ih =>
    have hne : el.listener_id ≠ lid := by
      intro hc
      exact h (by simp [lidsOf, hc])
    simp only [addCallbackToGroups]
    rw [if_neg hne, ih (fun hc => h (by simp [lidsOf] at hc ⊢; exact Or.inr hc))]
    rfl

theorem lidsOf_map_updGroup (els : EventListeners) (lid : Nat) (cb : Callback) :
    lidsOf (els.map (updGroup lid cb)) = lidsOf els := by
  unfold lidsOf
  rw [List.map_map]
  exact List.map_congr_left (fun el _ => updGroup_lid lid cb el)

theorem extendCalls_nil (el : ListenerCallbacks) : extendCalls [] el = el := by
  cases el
  simp [extendCalls]

theorem extendCalls_updGroup (p : Nat × Callback) (ps : List (Nat × Callback))
    (el : ListenerCallbacks) :
    extendCalls ps (updGroup p.1 p.2 el) = extendCalls (p :: ps) el := by
  by_cases h : el.listener_id = p.1
  · unfold updGroup extendCalls
    rw [if_pos h]
    simp only [List.filter_cons]
    rw [if_pos (by simp [h])]
    simp [List.append_assoc]
  · unfold updGroup extendCalls
    rw [if_neg h]
    simp only [List.filter_cons]
    rw [if_neg (by simp only [beq_iff_eq]; exact fun hc => h hc.symm)]

theorem extendCalls_cons_of_ne (p : Nat × Callback) (ps : List (Nat × Callback))
    (el : ListenerCallbacks) (h : p.1 ≠ el.listener_id) :
    extendCalls (p :: ps) el = extendCalls ps el := by
  unfold extendCalls
  simp only [List.filter_cons]
  rw [if_neg (by simp [h])]

theorem specGroups_cons (p : Nat × Callback) (qs : List (Nat × Callback)) :
    specGroups (p :: qs)
      = ⟨p.1, p.2 :: (qs.filter (fun q => q.1 == p.1)).map (fun q => q.2)⟩
        :: specGroups (qs.filter (fun q => !(q.1 == p.1))) := by
  unfold specGroups
  rw [List.map_cons, firstDedup_cons, List.map_cons]
  congr 1
  · simp only [List.filter_cons]
    rw [if_pos (by simp)]
    simp
  · have h9 : ((qs.map (fun q => q.1)).filter (fun b => !(b == p.1)))
        = ((qs.filter (fun q => !(q.1 == p.1))).map (fun q => q.1)) := by
      rw [List.filter_map]
      exact congrArg (List.map _) (List.filter_congr (fun q _ => rfl))
    rw [h9]
    apply List.map_congr_left
    intro lid hlid
    have hmem : lid ∈ (qs.filter (fun q => !(q.1 == p.1))).map (fun q => q.1) :=
      mem_of_mem_firstDedupAux lid [] _ hlid
    obtain ⟨q, hq, hq1⟩ := List.mem_map.mp hmem
    have hne : lid ≠ p.1 := by
      have hf := List.of_mem_filter hq
      simp only [Bool.not_eq_eq_eq_not, Bool.not_true, beq_eq_false_iff_ne] at hf
      rw [← hq1]
      exact hf
    congr 1
    simp only [List.filter_cons]
    rw [if_neg (by simp [Ne.symm hne]), List.filter_filter]
    refine congrArg (List.map _) (List.filter_congr (fun r _ => ?_))
    by_cases h : r.1 = lid
    · simp [h, hne]
    · simp [h]

theorem applyPairs_cons (els : EventListeners) (p : Nat × Callback)
    (ps : List (Nat × Callback)) :
    applyPairs els (p :: ps) = applyPairs (addCallbackToGroups els p.1 p.2) ps :=
  rfl

theorem applyPairs_merge (ps : List (Nat × Callback)) (els : EventListeners)
    (hnd : (lidsOf els).Nodup) :
    applyPairs els ps
      = els.map (extendCalls ps)
        ++ specGroups (ps.filter (fun p => !((lidsOf els).contains p.1))) := by
  induction ps generalizing els with
  | nil =>
    simp only [applyPairs, List.foldl_nil, List.filter_nil]
    rw [show specGroups [] = [] from rfl, List.append_nil]
    rw [List.map_congr_left (g := id) (fun el _ => extendCalls_nil el), List.map_id]
  | cons p ps ih =>
    by_cases hmem : p.1 ∈ lidsOf els
    · rw [applyPairs_cons, addCb_of_mem els p.1 p.2 hnd hmem,
        ih (els.map (updGroup p.1 p.2)) (by rw [lidsOf_map_updGroup]; exact hnd),
        lidsOf_map_updGroup]
      have hfil : (p :: ps).filter (fun q => !((lidsOf els).contains q.1))
          = ps.filter (fun q => !((lidsOf els).contains q.1)) := by
        simp only [List.filter_cons]
        rw [if_neg (by simp [hmem])]
      rw [hfil]
      congr 1
      rw [List.map_map]
      exact List.map_congr_left (fun el _ => extendCalls_updGroup p ps el)
    · rw [applyPairs_cons, addCb_of_not_mem els p.1 p.2 hmem]
      have hl : lidsOf (els ++ [⟨p.1, [p.2]⟩]) = lidsOf els ++ [p.1] := by
        simp [lidsOf]
      have hnd2 : (lidsOf (els ++ [⟨p.1, [p.2]⟩])).Nodup := by
        rw [hl, List.nodup_append]
        refine ⟨hnd, List.nodup_singleton p.1, ?_⟩
        intro a ha hb
        rw [List.mem_singleton] at hb
        exact hmem (hb ▸ ha)
      rw [ih (els ++ [(⟨p.1, [p.2]⟩ : ListenerCallbacks)]) hnd2, hl]
      have hfil : ps.filter (fun q => !((lidsOf els ++ [p.1]).contains q.1))
          = (ps.filter (fun q => !((lidsOf els).contains q.1))).filter
              (fun q => !(q.1 == p.1)) := by
        rw [List.filter_filter]
        apply List.filter_congr
        intro q _
        by_cases h3 : q.1 = p.1 <;> by_cases h4 : q.1 ∈ lidsOf els <;>
          simp [h3, h4]
      rw [hfil]
      have hcons : (p :: ps).filter (fun q => !((lidsOf els).contains q.1))
          = p :: ps.filter (fun q => !((lidsOf els).contains q.1)) := by
        simp only [List.filter_cons]
        rw [if_pos (by simp [hmem])]
      rw [hcons, specGroups_cons, List.map_append, List.append_assoc]
      congr 1
      · apply List.map_congr_left
        intro el hel
        have hne : p.1 ≠ el.listener_id := by
          intro hc
          exact hmem (hc ▸ List.mem_map_of_mem (fun el => el.listener_id) hel)
        exact (extendCalls_cons_of_ne p ps el hne).symm
      · rw [List.map_singleton, List.singleton_append]
        congr 1
        unfold extendCalls
        congr 1
        rw [List.singleton_append]
        congr 1
        rw [List.filter_filter]
        refine (congrArg (List.map _) (List.filter_congr (fun q _ => ?_))).symm
        by_cases h3 : q.1 = p.1 <;> simp [h3, hmem]

theorem addToMap_mapFind_self (m : ListenersMap) (id : event_id_t) (lid : Nat)
    (cb : Callback) :
    mapFind (addToMap m id lid cb) id
      = some (addCallbackToGroups ((mapFind m id).getD []) lid cb) := by
  induction m with
  | nil => simp [addToMap, mapFind]
  | cons kv rest ih =>
    obtain ⟨k, els⟩ := kv
    by_cases h : k = id
    · have hfind : mapFind ((k, els) :: rest) id = some els := by
        simp only [mapFind]
        rw [if_pos h]
      rw [hfind]
      simp only [addToMap]
      rw [if_pos h]
      simp only [mapFind]
      rw [if_pos h]
      rfl
    · have hfind : mapFind ((k, els) :: rest) id = mapFind rest id := by
        simp only [mapFind]
        rw [if_neg h]
      rw [hfind]
      simp only [addToMap]
      rw [if_neg h]
      simp only [mapFind]
      rw [if_neg h]
      exact ih

theorem addToMap_mapFind_other (m : ListenersMap) (id2 : event_id_t) (lid : Nat)
    (cb : Callback) (id : event_id_t) (h : id2 ≠ id) :
    mapFind (addToMap m id2 lid cb) id = mapFind m id := by
  induction m with
  | nil =>
    simp only [addToMap, mapFind]
    rw [if_neg h]
  | cons kv rest ih =>
    obtain ⟨k, els⟩ := kv
    simp only [addToMap]
    by_cases hk : k = id2
    · rw [if_pos hk]
      simp only [mapFind]
      rw [if_neg (fun hc => h (hk.symm.trans hc)),
        if_neg (fun hc => h (hk.symm.trans hc))]
    · rw [if_neg hk]
      simp only [mapFind]
      by_cases h2 : k = id
      · rw [if_pos h2, if_pos h2]
      · rw [if_neg h2, if_neg h2, ih]

theorem registerSeq_log (ops : List (event_id_t × Nat × Callback)) (s : EventBus) :
    (registerSeq ops s).log = s.log := by
  induction ops generalizing s with
  | nil => rfl
  | cons o ops ih => exact (ih (s.addListener o.1 o.2.1 o.2.2)).trans rfl

theorem registerSeq_mapFind (ops : List (event_id_t × Nat × Callback))
    (s : EventBus) (id : event_id_t) :
    mapFind ((registerSeq ops s).m_listeners) id
      = match mapFind s.m_listeners id with
        | some els => some (applyPairs els (opsFor id ops))
        | none =>
          if (opsFor id ops).isEmpty then none
          else some (applyPairs [] (opsFor id ops)) := by
  induction ops generalizing s with
  | nil => cases h : mapFind s.m_listeners id <;> simp [registerSeq, opsFor, applyPairs, h]
  | cons o ops ih =>
    show mapFind ((registerSeq ops (s.addListener o.1 o.2.1 o.2.2)).m_listeners) id = _
    rw [ih]
    by_cases h : o.1 = id
    · have h1 : mapFind ((s.addListener o.1 o.2.1 o.2.2).m_listeners) id
          = some (addCallbackToGroups ((mapFind s.m_listeners id).getD []) o.2.1 o.2.2) := by
        show mapFind (addToMap s.m_listeners o.1 o.2.1 o.2.2) id = _
        rw [h]
        exact addToMap_mapFind_self s.m_listeners id o.2.1 o.2.2
      have h2 : opsFor id (o :: ops) = o.2 :: opsFor id ops := by
        unfold opsFor
        simp only [List.filter_cons]
        rw [if_pos (by simp [h])]
        rw [List.map_cons]
      rw [h1, h2]
      cases h3 : mapFind s.m_listeners id with
      | none => simp [applyPairs_cons]
      | some els => simp [applyPairs_cons]
    · have h1 : mapFind ((s.addListener o.1 o.2.1 o.2.2).m_listeners) id
          = mapFind s.m_listeners id :=
        addToMap_mapFind_other s.m_listeners o.1 o.2.1 o.2.2 id h
      have h2 : opsFor id (o :: ops) = opsFor id ops := by
        unfold opsFor
        simp only [List.filter_cons]
        rw [if_neg (by simp [h])]
      rw [h1, h2]

theorem allNonNull_flatMap (e : Nat) (cs : List Callback)
    (h : ∀ c ∈ cs, c.fn ≠ none) :
    cs.flatMap (callTrace e) = cs.map (fun c => (c.tag, e)) := by
  induction cs with
  | nil => rfl
  | cons c cs ih =>
    rw [List.flatMap_cons, List.map_cons,
      ih (fun d hd => h d (List.mem_cons_of_mem c hd))]
    have hc : callTrace e c = [(c.tag, e)] := by
      cases hf : c.fn with
      | none => exact absurd hf (h c (List.mem_cons_self c cs))
      | some posts => simp [callTrace, hf]
    rw [hc, List.singleton_append]

theorem groupsTrace_nonNull (e : Nat) (els : EventListeners)
    (h : ∀ c ∈ els.flatMap (fun el => el.calls), c.fn ≠ none) :
    groupsTrace e els = (els.flatMap (fun el => el.calls)).map (fun c => (c.tag, e)) := by
  induction els with
  | nil => rfl
  | cons el rest ih =>
    simp only [groupsTrace, List.flatMap_cons, List.map_append] at h ⊢
    rw [allNonNull_flatMap e el.calls
        (fun c hc => h c (List.mem_append_left _ hc))]
    have := ih (fun c hc => h c (List.mem_append_right _ hc))
    simp only [groupsTrace] at this
    rw [this]

theorem applyPairs_nil_spec (ps : List (Nat × Callback)) :
    applyPairs [] ps = specGroups ps := by
  rw [applyPairs_merge ps [] (by simp [lidsOf])]
  have hall : ps.filter (fun p => !(((lidsOf []).contains p.1))) = ps :=
    List.filter_eq_self.mpr (fun a _ => rfl)
  rw [hall]
  rfl

/-- Claim C2 (confirmed): starting from a fresh bus, after any sequence of
registrations the registry entry for an event id is exactly `specGroups` of
the registrations for that id — one group per subscriber, groups ordered by
each subscriber's first registration for that id, callbacks within a group in
registration order (first conjunct) — and `immediate` produces exactly the
trace of those groups in that order (second conjunct); when every stored
callback is non-null, that trace invokes every callback of every group exactly
once, in order (third conjunct). -/
theorem emit_now_dispatch_order (ops : List (event_id_t × Nat × Callback))
    (id : event_id_t) (e : Nat) :
    (mapFind ((registerSeq ops emptyBus).m_listeners) id
      = if (opsFor id ops).isEmpty then none
        else some (specGroups (opsFor id ops)))
    ∧ ((registerSeq ops emptyBus).immediate id e).log
        = groupsTrace e (specGroups (opsFor id ops))
    ∧ ∀ els : EventListeners,
        (∀ c ∈ els.flatMap (fun el => el.calls), c.fn ≠ none) →
        groupsTrace e els
          = (els.flatMap (fun el => el.calls)).map (fun c => (c.tag, e)) := by
  have hm := registerSeq_mapFind ops emptyBus id
  rw [show mapFind emptyBus.m_listeners id = none from rfl] at hm
  have hm2 : mapFind ((registerSeq ops emptyBus).m_listeners) id
      = if (opsFor id ops).isEmpty then none
        else some (specGroups (opsFor id ops)) := by
    rw [hm, applyPairs_nil_spec]
  refine ⟨hm2, ?_, fun els h => groupsTrace_nonNull e els h⟩
  rw [immediate_log, registerSeq_log, show emptyBus.log = [] from rfl,
    List.nil_append]
  unfold immediateTrace
  rw [hm2]
  by_cases hie : (opsFor id ops).isEmpty
  · rw [if_pos hie, List.isEmpty_iff.mp hie]
    rfl
  · rw [if_neg hie]

/-- Registration requests used by the C2 witness: listeners 1 and 2 for event
id 7 (listener 1 twice), listener 3 for event id 8. -/
def opsW : List (event_id_t × Nat × Callback) :=
  [(7, 1, ⟨100, some []⟩), (7, 2, ⟨200, some []⟩), (7, 1, ⟨101, some []⟩),
    (8, 3, ⟨300, some []⟩)]

/-- Witness for claim C2 on `opsW`: groups for event id 7 are listener 1's
(callbacks 100 then 101) then listener 2's (callback 200), and one `immediate`
invokes exactly 100, 101, 200 in that order. -/
theorem emit_now_dispatch_order_witness :
    mapFind ((registerSeq opsW emptyBus).m_listeners) 7
      = some [⟨1, [⟨100, some []⟩, ⟨101, some []⟩]⟩, ⟨2, [⟨200, some []⟩]⟩]
    ∧ ((registerSeq opsW emptyBus).immediate 7 9).log
        = [(100, 9), (101, 9), (200, 9)]
    ∧ groupsTrace 9 ([⟨1, [⟨100, some []⟩, ⟨101, some []⟩]⟩, ⟨2, [⟨200, some []⟩]⟩] : EventListeners)
        = (([⟨1, [⟨100, some []⟩, ⟨101, some []⟩]⟩,
            ⟨2, [⟨200, some []⟩]⟩] : EventListeners).flatMap (fun el => el.calls)).map
              (fun c => (c.tag, 9)) := by
  refine ⟨?_, ?_, ?_⟩
  · rw [(emit_now_dispatch_order opsW 7 9).1]
    decide
  · rw [(emit_now_dispatch_order opsW 7 9).2.1]
    decide
  · exact (emit_now_dispatch_order opsW 7 9).2.2
      ([⟨1, [⟨100, some []⟩, ⟨101, some []⟩]⟩, ⟨2, [⟨200, some []⟩]⟩] : EventListeners)
      (by decide)

theorem applyPairs_same_lid (cbs : List Callback) (lid : Nat)
    (acc : List Callback) :
    applyPairs [⟨lid, acc⟩] (cbs.map (fun cb => (lid, cb))) = [⟨lid, acc ++ cbs⟩] := by
  induction cbs generalizing acc with
  | nil => simp [applyPairs]
  | cons c rest ih =>
    rw [List.map_cons, applyPairs_cons]
    have h1 : addCallbackToGroups [⟨lid, acc⟩] (lid, c).1 (lid, c).2
        = [⟨lid, acc ++ [c]⟩] := by
      simp [addCallbackToGroups]
    rw [h1, ih]
    simp

theorem applyPairs_nil_same_lid (cbs : List Callback) (lid : Nat) :
    applyPairs [] (cbs.map (fun cb => (lid, cb)))
      = if cbs.isEmpty then [] else [⟨lid, cbs⟩] := by
  cases cbs with
  | nil => rfl
  | cons c rest =>
    rw [List.map_cons, applyPairs_cons,
      show addCallbackToGroups [] (lid, c).1 (lid, c).2 = [⟨lid, [c]⟩] from rfl,
      applyPairs_same_lid rest lid [c]]
    simp

/-- Claim C4 (confirmed): registering any list of callbacks for one
`(subscriber, event id)` pair on a fresh bus retains them all in one group, in
registration order (first conjunct); a single `immediate` runs them in that
order, each non-null one once (second conjunct); when all are non-null, every
one of the n callbacks is invoked exactly once, in registration order (third
conjunct). -/
theorem repeated_registration_all_invoked (cbs : List Callback)
    (id : event_id_t) (lid e : Nat) :
    (mapFind ((registerSeq (cbs.map (fun cb => (id, lid, cb))) emptyBus).m_listeners) id
      = if cbs.isEmpty then none else some [⟨lid, cbs⟩])
    ∧ ((registerSeq (cbs.map (fun cb => (id, lid, cb))) emptyBus).immediate id e).log
        = cbs.flatMap (callTrace e)
    ∧ ((∀ c ∈ cbs, c.fn ≠ none) →
      ((registerSeq (cbs.map (fun cb => (id, lid, cb))) emptyBus).immediate id e).log
        = cbs.map (fun c => (c.tag, e))) := by
  have hpairs : opsFor id (cbs.map (fun cb => (id, lid, cb)))
      = cbs.map (fun cb => (lid, cb)) := by
    unfold opsFor
    rw [List.filter_map, List.filter_eq_self.mpr (fun a _ => by simp),
      List.map_map]
    rfl
  have hm := registerSeq_mapFind (cbs.map (fun cb => (id, lid, cb))) emptyBus id
  rw [show mapFind emptyBus.m_listeners id = none from rfl, hpairs] at hm
  have h1 : mapFind ((registerSeq (cbs.map (fun cb => (id, lid, cb))) emptyBus).m_listeners) id
      = if cbs.isEmpty then none else some [⟨lid, cbs⟩] := by
    rw [hm, applyPairs_nil_same_lid cbs lid]
    cases cbs <;> rfl
  have h2 : ((registerSeq (cbs.map (fun cb => (id, lid, cb))) emptyBus).immediate id e).log
      = cbs.flatMap (callTrace e) := by
    rw [immediate_log, registerSeq_log, show emptyBus.log = [] from rfl,
      List.nil_append]
    unfold immediateTrace
    rw [h1]
    cases cbs with
    | nil => rfl
    | cons c rest =>
      show groupsTrace e [⟨lid, c :: rest⟩] = (c :: rest).flatMap (callTrace e)
      simp [groupsTrace]
  exact ⟨h1, h2, fun h => by rw [h2, allNonNull_flatMap e cbs h]⟩

/-- Callbacks used by the C4 witness. -/
def cbsW : List Callback := [⟨100, some []⟩, ⟨101, some []⟩]

/-- Witness for claim C4: registering callbacks 100 and 101 for
`(event 7, listener 1)` keeps both in one group and one `immediate` invokes
both, in order. -/
theorem repeated_registration_all_invoked_witness :
    mapFind ((registerSeq (cbsW.map (fun cb => (7, 1, cb))) emptyBus).m_listeners) 7
      = some [⟨1, cbsW⟩]
    ∧ ((registerSeq (cbsW.map (fun cb => (7, 1, cb))) emptyBus).immediate 7 9).log
        = [(100, 9), (101, 9)] := by
  refine ⟨?_, ?_⟩
  · rw [(repeated_registration_all_invoked cbsW 7 1 9).1]
    decide
  · rw [(repeated_registration_all_invoked cbsW 7 1 9).2.2 (by decide)]
    decide

/-- Registry well-formedness: keys are unique, every key maps to a non-empty
group list, and within one key each listener id owns at most one group. -/
def InvMap (m : ListenersMap) : Prop :=
  (m.map Prod.fst).Nodup ∧ ∀ kv ∈ m, kv.2 ≠ [] ∧ (lidsOf kv.2).Nodup

theorem addCb_ne_nil (els : EventListeners) (lid : Nat) (cb : Callback) :
    addCallbackToGroups els lid cb ≠ [] := by
  cases els with
  | nil => simp [addCallbackToGroups]
  | cons el rest =>
    simp only [addCallbackToGroups]
    by_cases h : el.listener_id = lid
    · rw [if_pos h]
      simp
    · rw [if_neg h]
      simp

theorem addCb_lids_nodup (els : EventListeners) (lid : Nat) (cb : Callback)
    (h : (lidsOf els).Nodup) :
    (lidsOf (addCallbackToGroups els lid cb)).Nodup := by
  by_cases hmem : lid ∈ lidsOf els
  · rw [addCb_of_mem els lid cb h hmem, lidsOf_map_updGroup]
    exact h
  · rw [addCb_of_not_mem els lid cb hmem,
      show lidsOf (els ++ [⟨lid, [cb]⟩]) = lidsOf els ++ [lid] from by simp [lidsOf],
      List.nodup_append]
    refine ⟨h, List.nodup_singleton lid, ?_⟩
    intro a ha hb
    rw [List.mem_singleton] at hb
    exact hmem (hb ▸ ha)

theorem mem_keys_addToMap (m : ListenersMap) (id : event_id_t) (lid : Nat)
    (cb : Callback) (x : event_id_t)
    (h : x ∈ (addToMap m id lid cb).map Prod.fst) :
    x ∈ m.map Prod.fst ∨ x = id := by
  induction m with
  | nil =>
    simp only [addToMap, List.map_cons, List.map_nil] at h
    rcases List.mem_cons.mp h with h | h
    · exact Or.inr h
    · cases h
  | cons kv rest ih =>
    obtain ⟨k, els⟩ := kv
    simp only [addToMap] at h
    by_cases hk : k = id
    · rw [if_pos hk] at h
      simp only [List.map_cons] at h
      rcases List.mem_cons.mp h with h | h
      · exact Or.inl (by simp [h])
      · exact Or.inl (by simp [h])
    · rw [if_neg hk] at h
      simp only [List.map_cons] at h
      rcases List.mem_cons.mp h with h | h
      · exact Or.inl (by simp [h])
      · rcases ih h with h2 | h2
        · exact Or.inl (by simp [h2])
        · exact Or.inr h2

theorem addToMap_inv (m : ListenersMap) (id : event_id_t) (lid : Nat)
    (cb : Callback) (h : InvMap m) : InvMap (addToMap m id lid cb) := by
  induction m with
  | nil =>
    refine ⟨by simp [addToMap], ?_⟩
    intro kv hkv
    simp only [addToMap] at hkv
    rw [List.mem_singleton] at hkv
    subst hkv
    exact ⟨by simp [addCallbackToGroups], by simp [addCallbackToGroups, lidsOf]⟩
  | cons kv0 rest ih =>
    obtain ⟨k, els⟩ := kv0
    obtain ⟨hkeys, hent⟩ := h
    rw [List.map_cons, List.nodup_cons] at hkeys
    have hhead := hent (k, els) (List.mem_cons_self _ _)
    have hrest : InvMap rest :=
      ⟨hkeys.2, fun kv hkv => hent kv (List.mem_cons_of_mem _ hkv)⟩
    simp only [addToMap]
    by_cases hk : k = id
    · rw [if_pos hk]
      refine ⟨?_, ?_⟩
      · rw [List.map_cons, List.nodup_cons]
        exact hkeys
      · intro kv hkv
        rcases List.mem_cons.mp hkv with h2 | h2
        · subst h2
          exact ⟨addCb_ne_nil els lid cb, addCb_lids_nodup els lid cb hhead.2⟩
        · exact hent kv (List.mem_cons_of_mem _ h2)
    · rw [if_neg hk]
      obtain ⟨ihkeys, ihent⟩ := ih hrest
      refine ⟨?_, ?_⟩
      · rw [List.map_cons, List.nodup_cons]
        refine ⟨?_, ihkeys⟩
        intro hc
        rcases mem_keys_addToMap rest id lid cb k hc with h2 | h2
        · exact hkeys.1 h2
        · exact hk h2
      · intro kv hkv
        rcases List.mem_cons.mp hkv with h2 | h2
        · subst h2
          exact hhead
        · exact ihent kv h2

theorem mem_keys_removeOne (m : ListenersMap) (id : event_id_t) (lid : Nat)
    (x : event_id_t) (h : x ∈ (removeFromMapOne m id lid).map Prod.fst) :
    x ∈ m.map Prod.fst := by
  induction m with
  | nil => cases h
  | cons kv rest ih =>
    obtain ⟨k, els⟩ := kv
    simp only [removeFromMapOne] at h
    by_cases hk : k = id
    · rw [if_pos hk] at h
      by_cases he : (erase_if els (fun el => el.listener_id == lid)).isEmpty
      · rw [if_pos he] at h
        exact List.mem_cons_of_mem _ h
      · rw [if_neg he] at h
        simp only [List.map_cons] at h
        rcases List.mem_cons.mp h with h2 | h2
        · simp [h2]
        · exact List.mem_cons_of_mem _ h2
    · rw [if_neg hk] at h
      simp only [List.map_cons] at h
      rcases List.mem_cons.mp h with h2 | h2
      · simp [h2]
      · exact List.mem_cons_of_mem _ (ih h2)

theorem removeFromMapOne_inv (m : ListenersMap) (id : event_id_t) (lid : Nat)
    (h : InvMap m) : InvMap (removeFromMapOne m id lid) := by
  induction m with
  | nil => exact h
  | cons kv0 rest ih =>
    obtain ⟨k, els⟩ := kv0
    obtain ⟨hkeys, hent⟩ := h
    rw [List.map_cons, List.nodup_cons] at hkeys
    have hhead := hent (k, els) (List.mem_cons_self _ _)
    have hrest : InvMap rest :=
      ⟨hkeys.2, fun kv hkv => hent kv (List.mem_cons_of_mem _ hkv)⟩
    simp only [removeFromMapOne]
    by_cases hk : k = id
    · rw [if_pos hk]
      by_cases he : (erase_if els (fun el => el.listener_id == lid)).isEmpty
      · rw [if_pos he]
        exact hrest
      · rw [if_neg he]
        refine ⟨?_, ?_⟩
        · rw [List.map_cons, List.nodup_cons]
          exact hkeys
        · intro kv hkv
          rcases List.mem_cons.mp hkv with h2 | h2
          · subst h2
            refine ⟨by simpa [List.isEmpty_iff] using he, ?_⟩
            exact (List.Sublist.map (fun el : ListenerCallbacks => el.listener_id)
              (List.filter_sublist els)).nodup hhead.2
          · exact hent kv (List.mem_cons_of_mem _ h2)
    · rw [if_neg hk]
      obtain ⟨ihkeys, ihent⟩ := ih hrest
      refine ⟨?_, ?_⟩
      · rw [List.map_cons, List.nodup_cons]
        refine ⟨fun hc => hkeys.1 (mem_keys_removeOne rest id lid k hc), ihkeys⟩
      · intro kv hkv
        rcases List.mem_cons.mp hkv with h2 | h2
        · subst h2
          exact hhead
        · exact ihent kv h2

theorem mem_keys_removeAll (m : ListenersMap) (lid : Nat) (x : event_id_t)
    (h : x ∈ (removeFromMapAll m lid).map Prod.fst) : x ∈ m.map Prod.fst := by
  induction m with
  | nil => cases h
  | cons kv rest ih =>
    obtain ⟨k, els⟩ := kv
    simp only [removeFromMapAll] at h
    by_cases he : (erase_if els (fun el => el.listener_id == lid)).isEmpty
    · rw [if_pos he] at h
      exact List.mem_cons_of_mem _ (ih h)
    · rw [if_neg he] at h
      simp only [List.map_cons] at h
      rcases List.mem_cons.mp h with h2 | h2
      · simp [h2]
      · exact List.mem_cons_of_mem _ (ih h2)

theorem removeFromMapAll_inv (m : ListenersMap) (lid : Nat) (h : InvMap m) :
    InvMap (removeFromMapAll m lid) := by
  induction m with
  | nil => exact h
  | cons kv0 rest ih =>
    obtain ⟨k, els⟩ := kv0
    obtain ⟨hkeys, hent⟩ := h
    rw [List.map_cons, List.nodup_cons] at hkeys
    have hhead := hent (k, els) (List.mem_cons_self _ _)
    have hrest : InvMap rest :=
      ⟨hkeys.2, fun kv hkv => hent kv (List.mem_cons_of_mem _ hkv)⟩
    simp only [removeFromMapAll]
    by_cases he : (erase_if els (fun el => el.listener_id == lid)).isEmpty
    · rw [if_pos he]
      exact ih hrest
    · rw [if_neg he]
      obtain ⟨ihkeys, ihent⟩ := ih hrest
      refine ⟨?_, ?_⟩
      · rw [List.map_cons, List.nodup_cons]
        refine ⟨fun hc => hkeys.1 (mem_keys_removeAll rest lid k hc), ihkeys⟩
      · intro kv hkv
        rcases List.mem_cons.mp hkv with h2 | h2
        · subst h2
          refine ⟨by simpa [List.isEmpty_iff] using he, ?_⟩
          exact (List.Sublist.map (fun el : ListenerCallbacks => el.listener_id)
            (List.filter_sublist els)).nodup hhead.2
        · exact ihent kv h2

/-- The operations a client can perform on a bus, used to describe the
reachable states. -/
inductive BusOp where
  | add (id : event_id_t) (lid : Nat) (cb : Callback)
  | removeOne (id : event_id_t) (lid : Nat)
  | removeAll (lid : Nat)
  | postEvent (id : event_id_t) (e : Nat)
  | emit (id : event_id_t) (e : Nat)
  | flush
  | newListenerId
deriving Repr

/-- Run one bus operation. -/
def applyOp (s : EventBus) (op : BusOp) : EventBus :=
  match op with
  | .add id lid cb => s.addListener id lid cb
  | .removeOne id lid => s.removeListener id lid
  | .removeAll lid => s.removeListenerAll lid
  | .postEvent id e => s.post id e
  | .emit id e => s.immediate id e
  | .flush => s.process
  | .newListenerId => (s.getNewListenerId).2

/-- A bus state reachable from a fresh bus by a sequence of operations. -/
def reachableBus (s : EventBus) : Prop :=
  ∃ ops : List BusOp, s = ops.foldl applyOp emptyBus

theorem applyOp_inv (s : EventBus) (op : BusOp) (h : InvMap s.m_listeners) :
    InvMap (applyOp s op).m_listeners := by
  cases op with
  | add id lid cb => exact addToMap_inv s.m_listeners id lid cb h
  | removeOne id lid => exact removeFromMapOne_inv s.m_listeners id lid h
  | removeAll lid => exact removeFromMapAll_inv s.m_listeners lid h
  | postEvent id e => exact h
  | emit id e =>
    show InvMap (s.immediate id e).m_listeners
    rw [immediate_listeners]
    exact h
  | flush =>
    show InvMap (s.process).m_listeners
    rw [process_listeners]
    exact h
  | newListenerId => exact h

/-- Claim C9 (confirmed): in every reachable bus state the registry is
well-formed — each present event-type key is unique and maps to a non-empty
group list in which every listener id owns at most one group (re-registration
appends to the existing group instead of duplicating it). -/
theorem registry_wellformed_invariant (s : EventBus) (h : reachableBus s) :
    InvMap s.m_listeners := by
  obtain ⟨ops, rfl⟩ := h
  suffices hs : ∀ (l : List BusOp) (t : EventBus),
      InvMap t.m_listeners → InvMap (l.foldl applyOp t).m_listeners by
    exact hs ops emptyBus ⟨List.nodup_nil, fun kv hkv => (List.not_mem_nil kv hkv).elim⟩
  intro l
  induction l with
  | nil => exact fun t ht => ht
  | cons op l ih => exact fun t ht => ih (applyOp t op) (applyOp_inv t op ht)

/-- Operation sequence used by the C9 witness: listener 1 registers twice for
event id 7, listener 2 once for id 8, then an emit and a flush happen. -/
def busOpsW : List BusOp :=
  [BusOp.add 7 1 ⟨100, some []⟩, BusOp.add 7 1 ⟨101, some []⟩,
    BusOp.add 8 2 ⟨200, some []⟩, BusOp.emit 7 9, BusOp.flush]

/-- Witness for claim C9: the state reached by `busOpsW` satisfies the
registry invariant. -/
theorem registry_wellformed_invariant_witness :
    InvMap ((busOpsW.foldl applyOp emptyBus).m_listeners) :=
  registry_wellformed_invariant (busOpsW.foldl applyOp emptyBus) ⟨busOpsW, rfl⟩
